import Mathlib

/-!
Verification development for the velox DISTINCT-aggregation core:
`velox/exec/AddressableNonNullValueList.cpp` and
`velox/exec/DistinctAggregations.cpp`.

The two source files are embedded shallowly.  External collaborators that
are not part of the sources (the `HashStringAllocator` chunk chain, the
`ContainerRowSerde` value codec, the `SetAccumulator` uniqueness set and
the wrapped aggregate functions) are modelled from the specification and
marked as such in their doc comments.  Machine bytes are `Nat`s, byte
buffers are `List Nat`, and fallible operations return `Option`.
-/

namespace Vx

/-- Little-endian byte encoding of a natural number on `k` bytes, as
`ByteOutputStream::appendOne<uint64_t>` lays out the 8-byte hash prefix. -/
def toLEBytes : Nat → Nat → List Nat
  | _, 0 => []
  | n, k + 1 => n % 256 :: toLEBytes (n / 256) k

/-- Little-endian decoding of a byte list, as `ByteInputStream::read<uint64_t>`. -/
def fromLEBytes : List Nat → Nat
  | [] => 0
  | b :: bs => b + 256 * fromLEBytes bs

theorem length_toLEBytes (n k : Nat) : (toLEBytes n k).length = k := by
  induction k generalizing n with
  | zero => rfl
  | succ k ih => simp [toLEBytes, ih]

theorem fromLEBytes_toLEBytes (n k : Nat) :
    fromLEBytes (toLEBytes n k) = n % 256 ^ k := by
  induction k generalizing n with
  | zero => simp [toLEBytes, fromLEBytes, Nat.mod_one]
  | succ k ih =>
    have hlt : n % 256 + 256 * (n / 256 % 256 ^ k) < 256 * 256 ^ k := by
      have h1 : n % 256 < 256 := Nat.mod_lt _ (by omega)
      have h2 : n / 256 % 256 ^ k < 256 ^ k :=
        Nat.mod_lt _ (Nat.pos_pow_of_pos k (by omega))
      calc n % 256 + 256 * (n / 256 % 256 ^ k)
          < 256 + 256 * (n / 256 % 256 ^ k) := by omega
        _ = 256 * (n / 256 % 256 ^ k + 1) := by ring
        _ ≤ 256 * 256 ^ k := by
            exact Nat.mul_le_mul_left 256 (by omega)
    have hsplit : n = n % 256 + 256 * (256 ^ k * (n / 256 / 256 ^ k) + n / 256 % 256 ^ k) := by
      have e1 : 256 * (n / 256) + n % 256 = n := Nat.div_add_mod n 256
      have e2 : 256 ^ k * (n / 256 / 256 ^ k) + n / 256 % 256 ^ k = n / 256 :=
        Nat.div_add_mod (n / 256) (256 ^ k)
      omega
    calc fromLEBytes (toLEBytes n (k + 1))
        = n % 256 + 256 * (n / 256 % 256 ^ k) := by
          simp [toLEBytes, fromLEBytes, ih]
      _ = n % 256 ^ (k + 1) := by
          conv_rhs => rw [hsplit]
          rw [pow_succ]
          rw [Nat.mul_comm (256 ^ k) 256]
          rw [Nat.mul_add 256]
          rw [← Nat.mul_assoc 256 (256 ^ k) _]
          rw [Nat.add_comm (256 * 256 ^ k * (n / 256 / 256 ^ k)) (256 * (n / 256 % 256 ^ k))]
          rw [← Nat.add_assoc]
          rw [Nat.add_mul_mod_self_left]
          exact (Nat.mod_eq_of_lt hlt).symm

/-! ### The pool-backed chunk chain

Modelled from the spec: the `HashStringAllocator` collaborator
(`newWrite` / `extendWrite` / `finishWrite` / `prepareRead`) is not part of
the sources.  Per §3 of the spec it owns one forward-growing chain of
chunks; the first chunk is small (`kInitialSize = 44`, the constant that
does appear in `AddressableNonNullValueList::makeOutputStream`), growth
happens in bounded increments (the `1024` bound passed to `finishWrite`),
and a finished write is recoverable as a contiguous byte stream from the
returned position, independent of chunk boundaries. -/

structure Chunk where
  cap : Nat
  data : List Nat
deriving DecidableEq

/-- Initial allocation size used by `makeOutputStream` (5 words + 4 bytes). -/
def kInitialSize : Nat := 44

/-- Growth increment bound passed to `finishWrite`. -/
def kGrowSize : Nat := 1024

/-- Chunks are kept newest-first; `writeByte` fills the newest chunk and
starts a fresh chunk when it is full. -/
def writeByte (cs : List Chunk) (b : Nat) : List Chunk :=
  match cs with
  | [] => [⟨kInitialSize, [b]⟩]
  | c :: rest =>
    if c.data.length < c.cap then ⟨c.cap, c.data ++ [b]⟩ :: rest
    else ⟨kGrowSize, [b]⟩ :: c :: rest

def writeBytes (cs : List Chunk) (bs : List Nat) : List Chunk :=
  bs.foldl writeByte cs

/-- A position: reference to an owning chunk (by forward index in the
chain) plus a byte offset inside that chunk — the `Position`
(header, offset) pair of the store. -/
structure Pos where
  chunkIdx : Nat
  offset : Nat
deriving DecidableEq

/-- The position at which the next written byte will land. -/
def nextPos (cs : List Chunk) : Pos :=
  match cs with
  | [] => ⟨0, 0⟩
  | c :: rest =>
    if c.data.length < c.cap then ⟨rest.length, c.data.length⟩
    else ⟨rest.length + 1, 0⟩

/-- All bytes of the chain in forward (append) order. -/
def flatSeg (cs : List Chunk) : List Nat :=
  match cs with
  | [] => []
  | c :: rest => flatSeg rest ++ c.data

/-- Bytes of the chain from forward chunk index `ci` on. -/
def tailFrom (cs : List Chunk) (ci : Nat) : List Nat :=
  match cs with
  | [] => []
  | c :: rest => if ci ≤ rest.length then tailFrom rest ci ++ c.data else []

/-- Read `n` bytes starting at position `p`, walking across chunk
boundaries — the random-access cursor yielded by the allocator. -/
def readAt (cs : List Chunk) (p : Pos) (n : Nat) : List Nat :=
  ((tailFrom cs p.chunkIdx).drop p.offset).take n

theorem flatSeg_append (x y : List Chunk) :
    flatSeg (x ++ y) = flatSeg y ++ flatSeg x := by
  induction x with
  | nil => simp [flatSeg]
  | cons c x ih => simp [flatSeg, ih]

/-- Writing a byte appends it to the flattened content. -/
theorem flatSeg_writeByte (cs : List Chunk) (b : Nat) :
    flatSeg (writeByte cs b) = flatSeg cs ++ [b] := by
  match cs with
  | [] => simp [writeByte, flatSeg]
  | c :: rest =>
    simp only [writeByte]
    split
    · simp [flatSeg]
    · simp [flatSeg]

theorem flatSeg_writeBytes (cs : List Chunk) (bs : List Nat) :
    flatSeg (writeBytes cs bs) = flatSeg cs ++ bs := by
  induction bs generalizing cs with
  | nil => simp [writeBytes]
  | cons b bs ih =>
    have : writeBytes cs (b :: bs) = writeBytes (writeByte cs b) bs := rfl
    rw [this, ih, flatSeg_writeByte, List.append_assoc]
    rfl

/-- Writing into a nonempty chain only rewrites the newest chunk and adds
chunks in front of it: the result is `out ++ rest` with
`flatSeg out = c.data ++ bs`. -/
theorem writeBytes_split (bs : List Nat) (c : Chunk) (rest : List Chunk) :
    ∃ out, out ≠ [] ∧ writeBytes (c :: rest) bs = out ++ rest ∧
      flatSeg out = c.data ++ bs := by
  induction bs generalizing c rest with
  | nil =>
    refine ⟨[c], by simp, by simp [writeBytes], by simp [flatSeg]⟩
  | cons b bs ih =>
    have hstep : writeBytes (c :: rest) (b :: bs) =
        writeBytes (writeByte (c :: rest) b) bs := rfl
    by_cases hroom : c.data.length < c.cap
    · have hwb : writeByte (c :: rest) b = (⟨c.cap, c.data ++ [b]⟩ : Chunk) :: rest := by
        simp [writeByte, hroom]
      obtain ⟨out, hne, heq, hflat⟩ := ih ⟨c.cap, c.data ++ [b]⟩ rest
      refine ⟨out, hne, ?_, ?_⟩
      · rw [hstep, hwb, heq]
      · rw [hflat]; simp
    · have hwb : writeByte (c :: rest) b = (⟨kGrowSize, [b]⟩ : Chunk) :: c :: rest := by
        simp [writeByte, hroom]
      obtain ⟨out, hne, heq, hflat⟩ := ih ⟨kGrowSize, [b]⟩ (c :: rest)
      refine ⟨out ++ [c], by simp, ?_, ?_⟩
      · rw [hstep, hwb, heq]; simp
      · rw [flatSeg_append, hflat]; simp [flatSeg]

theorem tailFrom_append (out rest : List Chunk) (ci : Nat) (h : ci ≤ rest.length) :
    tailFrom (out ++ rest) ci = tailFrom rest ci ++ flatSeg out := by
  induction out with
  | nil => simp [flatSeg]
  | cons o out ih =>
    have hlen : ci ≤ (out ++ rest).length := by
      simp only [List.length_append]; omega
    show (if ci ≤ (out ++ rest).length then tailFrom (out ++ rest) ci ++ o.data else [])
        = tailFrom rest ci ++ flatSeg (o :: out)
    rw [if_pos hlen, ih]
    simp [flatSeg]

theorem tailFrom_self_length (rest : List Chunk) :
    tailFrom rest rest.length = [] := by
  match rest with
  | [] => rfl
  | c :: r =>
    simp only [tailFrom, List.length_cons]
    rw [if_neg (by omega)]

/-- Reading back at the position returned for a write yields exactly the
bytes written, regardless of how they were split across chunks. -/
theorem readAt_writeBytes_nextPos (cs : List Chunk) (bs : List Nat) :
    readAt (writeBytes cs bs) (nextPos cs) bs.length = bs := by
  match cs with
  | [] =>
    match bs with
    | [] => simp [writeBytes, readAt]
    | b :: bs =>
      have hstep : writeBytes ([] : List Chunk) (b :: bs) =
          writeBytes [⟨kInitialSize, [b]⟩] bs := rfl
      obtain ⟨out, hne, heq, hflat⟩ := writeBytes_split bs ⟨kInitialSize, [b]⟩ []
      rw [hstep, heq]
      simp only [readAt, nextPos]
      rw [tailFrom_append out [] 0 (by simp)]
      simp only [tailFrom, flatSeg, List.nil_append]
      rw [hflat]
      simp
  | c :: rest =>
    by_cases hroom : c.data.length < c.cap
    · obtain ⟨out, hne, heq, hflat⟩ := writeBytes_split bs c rest
      rw [heq]
      simp only [readAt, nextPos, hroom, if_pos]
      rw [tailFrom_append out rest rest.length (by omega)]
      rw [tailFrom_self_length, hflat]
      simp
    · match bs with
      | [] => simp [writeBytes, readAt]
      | b :: bs =>
        have hstep : writeBytes (c :: rest) (b :: bs) =
            writeBytes ((⟨kGrowSize, [b]⟩ : Chunk) :: c :: rest) bs := by
          simp [writeBytes, writeByte, hroom]
        obtain ⟨out, hne, heq, hflat⟩ := writeBytes_split bs ⟨kGrowSize, [b]⟩ (c :: rest)
        rw [hstep, heq]
        simp only [readAt, nextPos, hroom, if_neg, if_false]
        have hci : rest.length + 1 = (c :: rest).length := by simp
        rw [hci, tailFrom_append out (c :: rest) (c :: rest).length (by omega)]
        rw [tailFrom_self_length, hflat]
        simp

/-- Strict lexicographic order on positions: positions handed out by
successive appends only move forward. -/
def posLt (p q : Pos) : Prop :=
  p.chunkIdx < q.chunkIdx ∨ (p.chunkIdx = q.chunkIdx ∧ p.offset < q.offset)

theorem posLt_trans {p q r : Pos} (h1 : posLt p q) (h2 : posLt q r) : posLt p r := by
  rcases h1 with h1 | ⟨h1, h1o⟩ <;> rcases h2 with h2 | ⟨h2, h2o⟩ <;>
    simp only [posLt] <;> omega

theorem posLt_ne {p q : Pos} (h : posLt p q) : p ≠ q := by
  intro he
  subst he
  rcases h with h | ⟨_, h⟩ <;> omega

theorem nextPos_writeByte_lt (cs : List Chunk) (b : Nat) :
    posLt (nextPos cs) (nextPos (writeByte cs b)) := by
  match cs with
  | [] =>
    have : (1 : Nat) < kInitialSize := by decide
    simp [nextPos, writeByte, posLt, kInitialSize]
  | c :: rest =>
    by_cases hroom : c.data.length < c.cap
    · simp only [writeByte, if_pos hroom, nextPos]
      by_cases hroom2 : (c.data ++ [b]).length < c.cap
      · rw [if_pos hroom2]
        simp only [if_pos hroom, posLt]
        right
        simp
      · rw [if_neg hroom2]
        simp only [if_pos hroom, posLt]
        left
        omega
    · have h1 : (1 : Nat) < kGrowSize := by decide
      simp only [writeByte, if_neg hroom, nextPos]
      rw [if_pos (by simp [kGrowSize])]
      simp only [if_neg hroom, posLt, List.length_cons]
      right
      simp

theorem nextPos_writeBytes_lt (cs : List Chunk) (bs : List Nat) (hbs : bs ≠ []) :
    posLt (nextPos cs) (nextPos (writeBytes cs bs)) := by
  induction bs generalizing cs with
  | nil => exact absurd rfl hbs
  | cons b bs ih =>
    have hstep : writeBytes cs (b :: bs) = writeBytes (writeByte cs b) bs := rfl
    rw [hstep]
    match bs with
    | [] => exact nextPos_writeByte_lt cs b
    | b2 :: bs2 =>
      exact posLt_trans (nextPos_writeByte_lt cs b) (ih (writeByte cs b) (by simp))

theorem length_writeByte_ge (cs : List Chunk) (b : Nat) :
    cs.length ≤ (writeByte cs b).length := by
  match cs with
  | [] => simp [writeByte]
  | c :: rest =>
    simp only [writeByte]
    split <;> simp

theorem length_writeBytes_ge (cs : List Chunk) (bs : List Nat) :
    cs.length ≤ (writeBytes cs bs).length := by
  induction bs generalizing cs with
  | nil => simp [writeBytes]
  | cons b bs ih =>
    have hstep : writeBytes cs (b :: bs) = writeBytes (writeByte cs b) bs := rfl
    rw [hstep]
    exact Nat.le_trans (length_writeByte_ge cs b) (ih (writeByte cs b))

/-- After a nonempty write, the chunk referenced by the write's start
position exists in the chain. -/
theorem nextPos_chunkIdx_lt (cs : List Chunk) (bs : List Nat) (hbs : bs ≠ []) :
    (nextPos cs).chunkIdx < (writeBytes cs bs).length := by
  match cs with
  | [] =>
    match bs with
    | [] => exact absurd rfl hbs
    | b :: bs =>
      have hstep : writeBytes ([] : List Chunk) (b :: bs) =
          writeBytes [⟨kInitialSize, [b]⟩] bs := rfl
      rw [hstep]
      have := length_writeBytes_ge [(⟨kInitialSize, [b]⟩ : Chunk)] bs
      simp only [nextPos]
      simp at this ⊢
      omega
  | c :: rest =>
    by_cases hroom : c.data.length < c.cap
    · obtain ⟨out, hne, heq, _⟩ := writeBytes_split bs c rest
      rw [heq]
      simp only [nextPos, if_pos hroom, List.length_append]
      have : 1 ≤ out.length := by
        match out with
        | [] => exact absurd rfl hne
        | _ :: _ => simp
      omega
    · match bs with
      | [] => exact absurd rfl hbs
      | b :: bs =>
        have hstep : writeBytes (c :: rest) (b :: bs) =
            writeBytes ((⟨kGrowSize, [b]⟩ : Chunk) :: c :: rest) bs := by
          simp [writeBytes, writeByte, hroom]
        rw [hstep]
        obtain ⟨out, hne, heq, _⟩ := writeBytes_split bs ⟨kGrowSize, [b]⟩ (c :: rest)
        rw [heq]
        simp only [nextPos, if_neg hroom, List.length_append, List.length_cons]
        have : 1 ≤ out.length := by
          match out with
          | [] => exact absurd rfl hne
          | _ :: _ => simp
        omega

theorem take_append_of_le {α : Type} (u y : List α) (n : Nat) (h : n ≤ u.length) :
    (u ++ y).take n = u.take n := by
  induction u generalizing n with
  | nil =>
    have : n = 0 := by simpa using h
    simp [this]
  | cons a u ih =>
    match n with
    | 0 => simp
    | n + 1 =>
      show a :: (u ++ y).take n = a :: u.take n
      rw [ih n (by simpa using h)]

theorem drop_append_of_le {α : Type} (u y : List α) (n : Nat) (h : n ≤ u.length) :
    (u ++ y).drop n = u.drop n ++ y := by
  induction u generalizing n with
  | nil =>
    have : n = 0 := by simpa using h
    simp [this]
  | cons a u ih =>
    match n with
    | 0 => simp
    | n + 1 =>
      show (u ++ y).drop n = u.drop n ++ y
      exact ih n (by simpa using h)

/-- A read that already succeeded (returned as many bytes as requested)
returns the same bytes after any later append: later appends never
invalidate existing positions. -/
theorem readAt_writeBytes_stable (cs : List Chunk) (bs : List Nat) (p : Pos)
    (n : Nat) (r : List Nat) (hr : readAt cs p n = r) (hlen : r.length = n)
    (hci : p.chunkIdx < cs.length) :
    readAt (writeBytes cs bs) p n = r := by
  match cs with
  | [] => simp at hci
  | c :: rest =>
    obtain ⟨out, hne, heq, hflat⟩ := writeBytes_split bs c rest
    rw [heq]
    have hcile : p.chunkIdx ≤ rest.length := by
      simp at hci; omega
    have htail : tailFrom (out ++ rest) p.chunkIdx =
        tailFrom (c :: rest) p.chunkIdx ++ bs := by
      rw [tailFrom_append out rest p.chunkIdx hcile, hflat]
      simp only [tailFrom, if_pos hcile]
      simp
    simp only [readAt] at hr ⊢
    rw [htail]
    set x := tailFrom (c :: rest) p.chunkIdx with hx
    have hn : n ≤ (x.drop p.offset).length := by
      rw [← hr] at hlen
      have := List.length_take n (x.drop p.offset)
      omega
    have hxlen : n + p.offset ≤ x.length ∨ p.offset > x.length ∨
        (p.offset ≤ x.length ∧ n + p.offset ≤ x.length) := by
      have := List.length_drop p.offset x
      omega
    by_cases hoff : p.offset ≤ x.length
    · rw [drop_append_of_le x bs p.offset hoff]
      rw [take_append_of_le (x.drop p.offset) bs n hn]
      exact hr
    · have hdx : (x.drop p.offset).length = 0 := by
        have := List.length_drop p.offset x
        omega
      have hn0 : n = 0 := by omega
      subst hn0
      simp only [List.take_zero] at hr ⊢
      exact hr

/-! ### AddressableNonNullValueList -/

/-- Modelled from the spec: the `ContainerRowSerde` typed value codec is an
external collaborator (serialize / deserialize / compare of one typed value
against a byte cursor), consumed through this interface.  `hashValue`
models `BaseVector::hashValueAt`, and `compare` models
`ContainerRowSerde::compare` under the `kNullAsValue` equality flags used
by `equalTo`.  A value of type `V` stands for one decoded element
(`DecodedVector` + index in the source). -/
structure Serde (V : Type) where
  serialize : V → List Nat
  deserialize : List Nat → Option (V × List Nat)
  compare : List Nat → List Nat → Int
  hashValue : V → Nat

variable {V : Type}

/-- The byte record written by `append`: the 8-byte hash prefix followed by
the serialized value payload. -/
def recordBytes (serde : Serde V) (v : V) : List Nat :=
  toLEBytes (serde.hashValue v) 8 ++ serde.serialize v

/-- `AddressableNonNullValueList`: the chunk chain written through the
allocator plus the allocator's bookkeeping of finished writes.  `extents`
models the extent information `finishWrite` leaves in the chain (per the
spec, a finished write is recoverable as one contiguous record from its
returned position); `size_` mirrors the member of the same name. -/
structure ValueStore where
  alloc : List Chunk
  extents : Pos → Option Nat
  size_ : Nat

def emptyValueStore : ValueStore := ⟨[], fun _ => none, 0⟩

/-- Common tail of `append`/`appendSerialized`: write the bytes at the
current write position (`makeOutputStream` + `finishWrite`) and return the
record's start position. -/
def appendBytes (s : ValueStore) (bs : List Nat) : ValueStore × Pos :=
  let p := nextPos s.alloc
  (⟨writeBytes s.alloc bs,
    fun q => if q = p then some bs.length else s.extents q,
    s.size_ + 1⟩, p)

/-- `AddressableNonNullValueList::append`: writes the value's hash, then
the serialized value, and returns the position of the record's start. -/
def ValueStore.append (serde : Serde V) (s : ValueStore) (v : V) :
    ValueStore × Pos :=
  appendBytes s (recordBytes serde v)

/-- `AddressableNonNullValueList::appendSerialized`: identical, but the
payload is an already-serialized byte range. -/
def ValueStore.appendSerialized (s : ValueStore) (buffer : List Nat) :
    ValueStore × Pos :=
  appendBytes s buffer

/-- The local `prepareRead` helper (the allocator's `prepareRead` plus
`seekp` to the position, modelled from the spec as the cursor over the
finished write) and the optional skip of the 8-byte hash prefix. -/
def ValueStore.prepareReadAt (s : ValueStore) (p : Pos) (skipHash : Bool) :
    Option (List Nat) :=
  match s.extents p with
  | none => none
  | some n =>
    let bytes := readAt s.alloc p n
    some (if skipHash then bytes.drop 8 else bytes)

/-- `AddressableNonNullValueList::equalTo`: skips both hash prefixes and
compares the payloads with type-aware, null-as-value equality. -/
def ValueStore.equalTo (serde : Serde V) (s : ValueStore) (left right : Pos) :
    Option Bool :=
  match s.prepareReadAt left true, s.prepareReadAt right true with
  | some l, some r => some (decide (serde.compare l r = 0))
  | _, _ => none

/-- `AddressableNonNullValueList::readHash`: reads the 8-byte prefix
without touching the payload. -/
def ValueStore.readHash (s : ValueStore) (p : Pos) : Option Nat :=
  match s.prepareReadAt p false with
  | none => none
  | some bytes => some (fromLEBytes (bytes.take 8))

/-- `AddressableNonNullValueList::read`: skips the hash and deserializes
the payload (in the source, into a target column cell; here the value is
returned). -/
def ValueStore.read (serde : Serde V) (s : ValueStore) (p : Pos) : Option V :=
  match s.prepareReadAt p true with
  | none => none
  | some bytes =>
    match serde.deserialize bytes with
    | none => none
    | some vr => some vr.1

/-- `AddressableNonNullValueList::getSerializedSize`: size of the whole
record, hash included ("we need the hash to make sure it's there when we
put back"). -/
def ValueStore.getSerializedSize (s : ValueStore) (p : Pos) : Option Nat :=
  match s.prepareReadAt p false with
  | none => none
  | some bytes => some bytes.length

/-- `AddressableNonNullValueList::copySerializedTo`: `VELOX_CHECK_GE(size,
streamSize)` then copies the whole record and returns its size.  The fatal
check is modelled as `none`. -/
def ValueStore.copySerializedTo (s : ValueStore) (p : Pos) (size : Nat) :
    Option (List Nat × Nat) :=
  match s.prepareReadAt p false with
  | none => none
  | some bytes =>
    if size < bytes.length then none else some (bytes, bytes.length)

/-- Append a whole sequence of values, returning the positions in order. -/
def appendAll (serde : Serde V) (s : ValueStore) : List V → ValueStore × List Pos
  | [] => (s, [])
  | v :: vs =>
    let sp := ValueStore.append serde s v
    let rest := appendAll serde sp.1 vs
    (rest.1, sp.2 :: rest.2)

/-- Invariant tying a store to the records appended so far: each record is
recoverable at its returned position, and every recorded position lies
strictly before the next write position. -/
def StoreInv (s : ValueStore) (entries : List (Pos × List Nat)) : Prop :=
  ∀ pr ∈ entries,
    s.extents pr.1 = some pr.2.length ∧
    readAt s.alloc pr.1 pr.2.length = pr.2 ∧
    pr.1.chunkIdx < s.alloc.length ∧
    posLt pr.1 (nextPos s.alloc)

theorem storeInv_appendBytes (s : ValueStore) (entries : List (Pos × List Nat))
    (hinv : StoreInv s entries) (bs : List Nat) (hbs : bs ≠ []) :
    StoreInv (appendBytes s bs).1 (entries ++ [((appendBytes s bs).2, bs)]) := by
  intro pr hpr
  rw [List.mem_append] at hpr
  rcases hpr with hold | hnew
  · obtain ⟨hext, hread, hci, hlt⟩ := hinv pr hold
    refine ⟨?_, ?_, ?_, ?_⟩
    · show (if pr.1 = nextPos s.alloc then some bs.length else s.extents pr.1)
          = some pr.2.length
      rw [if_neg (posLt_ne hlt), hext]
    · exact readAt_writeBytes_stable s.alloc bs pr.1 pr.2.length pr.2 hread rfl hci
    · exact Nat.lt_of_lt_of_le hci (length_writeBytes_ge s.alloc bs)
    · exact posLt_trans hlt (nextPos_writeBytes_lt s.alloc bs hbs)
  · have hpr' : pr = (nextPos s.alloc, bs) := by simpa [appendBytes] using hnew
    subst hpr'
    refine ⟨?_, ?_, ?_, ?_⟩
    · show (if nextPos s.alloc = nextPos s.alloc then some bs.length else _)
          = some bs.length
      rw [if_pos rfl]
    · exact readAt_writeBytes_nextPos s.alloc bs
    · exact nextPos_chunkIdx_lt s.alloc bs hbs
    · exact nextPos_writeBytes_lt s.alloc bs hbs

theorem recordBytes_ne_nil (serde : Serde V) (v : V) :
    recordBytes serde v ≠ [] := by
  simp only [recordBytes]
  intro h
  have := congrArg List.length h
  simp [length_toLEBytes] at this

theorem recordBytes_length (serde : Serde V) (v : V) :
    (recordBytes serde v).length = 8 + (serde.serialize v).length := by
  simp [recordBytes, length_toLEBytes]

theorem recordBytes_drop8 (serde : Serde V) (v : V) :
    (recordBytes serde v).drop 8 = serde.serialize v := by
  have h := List.drop_left (toLEBytes (serde.hashValue v) 8) (serde.serialize v)
  rw [length_toLEBytes] at h
  simpa [recordBytes] using h

theorem recordBytes_take8 (serde : Serde V) (v : V) :
    (recordBytes serde v).take 8 = toLEBytes (serde.hashValue v) 8 := by
  have h := List.take_left (toLEBytes (serde.hashValue v) 8) (serde.serialize v)
  rw [length_toLEBytes] at h
  simpa [recordBytes] using h

theorem storeInv_appendAll (serde : Serde V) (vs : List V) (s : ValueStore)
    (entries : List (Pos × List Nat)) (hinv : StoreInv s entries) :
    StoreInv (appendAll serde s vs).1
      (entries ++ (appendAll serde s vs).2.zip (vs.map (recordBytes serde))) ∧
    (appendAll serde s vs).2.length = vs.length := by
  induction vs generalizing s entries with
  | nil => simpa [appendAll] using hinv
  | cons v vs ih =>
    have h1 := storeInv_appendBytes s entries hinv (recordBytes serde v)
      (recordBytes_ne_nil serde v)
    obtain ⟨hinv2, hlen⟩ :=
      ih (ValueStore.append serde s v).1
        (entries ++ [((ValueStore.append serde s v).2, recordBytes serde v)]) h1
    constructor
    · simpa [appendAll, List.append_assoc] using hinv2
    · simp [appendAll, hlen]

theorem mem_zip_of_get? {α β : Type} (l1 : List α) (l2 : List β) (k : Nat)
    (a : α) (b : β) (h1 : l1.get? k = some a) (h2 : l2.get? k = some b) :
    (a, b) ∈ l1.zip l2 := by
  induction l1 generalizing l2 k with
  | nil => simp at h1
  | cons x l1 ih =>
    match l2 with
    | [] => simp at h2
    | y :: l2 =>
      match k with
      | 0 =>
        simp only [List.get?] at h1 h2
        obtain rfl : x = a := by simpa using h1
        obtain rfl : y = b := by simpa using h2
        simp [List.zip]
      | k + 1 =>
        simp only [List.get?] at h1 h2
        have := ih l2 k h1 h2
        simp [List.zip] at this ⊢
        right
        exact this

theorem get?_isSome_of_lt {α : Type} (l : List α) (k : Nat) (h : k < l.length) :
    ∃ a, l.get? k = some a := by
  match he : l.get? k with
  | some a => exact ⟨a, rfl⟩
  | none =>
    rw [List.get?_eq_none] at he
    omega

/-- Central store lemma: in the store built by appending `vs`, the `k`-th
returned position holds exactly the `k`-th record (hash prefix plus
payload), and that record is recoverable through `prepareReadAt`. -/
theorem appendAll_record (serde : Serde V) (vs : List V) (k : Nat) (v : V)
    (p : Pos) (hk : vs.get? k = some v)
    (hp : (appendAll serde emptyValueStore vs).2.get? k = some p) :
    (appendAll serde emptyValueStore vs).1.prepareReadAt p false =
      some (recordBytes serde v) := by
  have hinv0 : StoreInv emptyValueStore [] := by intro pr hpr; simp at hpr
  obtain ⟨hinv, _⟩ := storeInv_appendAll serde vs emptyValueStore [] hinv0
  simp only [List.nil_append] at hinv
  have hmem : (p, recordBytes serde v) ∈
      (appendAll serde emptyValueStore vs).2.zip (vs.map (recordBytes serde)) := by
    apply mem_zip_of_get? _ _ k
    · exact hp
    · have : (vs.map (recordBytes serde)).get? k = (vs.get? k).map (recordBytes serde) := by
        simp
      rw [this, hk]
      rfl
  obtain ⟨hext, hread, _, _⟩ := hinv _ hmem
  simp only [ValueStore.prepareReadAt, hext, hread]
  rfl

theorem appendAll_payload (serde : Serde V) (vs : List V) (k : Nat) (v : V)
    (p : Pos) (hk : vs.get? k = some v)
    (hp : (appendAll serde emptyValueStore vs).2.get? k = some p) :
    (appendAll serde emptyValueStore vs).1.prepareReadAt p true =
      some (serde.serialize v) := by
  have h := appendAll_record serde vs k v p hk hp
  simp only [ValueStore.prepareReadAt] at h ⊢
  match hext : (appendAll serde emptyValueStore vs).1.extents p with
  | none => rw [hext] at h; simp at h
  | some n =>
    rw [hext] at h
    simp only [if_neg] at h
    have hb : readAt (appendAll serde emptyValueStore vs).1.alloc p n =
        recordBytes serde v := by simpa using h
    simp only [hb, if_pos]
    rw [recordBytes_drop8]

/-! ### DistinctAggregations -/

/-- Runtime type kinds dispatched on by `DistinctAggregations::create`.
The kinds after `ROW` are examples of kinds that reach the
`VELOX_UNREACHABLE` default branch. -/
inductive TypeKind where
  | BOOLEAN
  | TINYINT
  | SMALLINT
  | INTEGER
  | BIGINT
  | REAL
  | DOUBLE
  | TIMESTAMP
  | VARCHAR
  | ARRAY
  | MAP
  | ROW
  | VARBINARY
  | HUGEINT
  | UNKNOWN
deriving DecidableEq

/-- The input row type: kinds of its child columns. -/
abbrev RowType := List TypeKind

/-- The slice of `AggregateInfo` that `DistinctAggregations` consumes:
the declared input column indices. -/
structure AggregateInfo where
  inputs : List Nat
deriving DecidableEq

/-- The `TypedDistinctAggregations<T>` template instantiations selectable
by the factory. -/
inductive Specialization where
  | sBool
  | sInt8
  | sInt16
  | sInt32
  | sInt64
  | sFloat
  | sDouble
  | sTimestamp
  | sStringView
  | sComplex
deriving DecidableEq

/-- The type-kind switch inside `DistinctAggregations::create`; the
default branch (`VELOX_UNREACHABLE`) is `none`. -/
def kindDispatch : TypeKind → Option Specialization
  | .BOOLEAN => some .sBool
  | .TINYINT => some .sInt8
  | .SMALLINT => some .sInt16
  | .INTEGER => some .sInt32
  | .BIGINT => some .sInt64
  | .REAL => some .sFloat
  | .DOUBLE => some .sDouble
  | .TIMESTAMP => some .sTimestamp
  | .VARCHAR => some .sStringView
  | .ARRAY => some .sComplex
  | .MAP => some .sComplex
  | .ROW => some .sComplex
  | _ => none

/-- `DistinctAggregations::create`.  `VELOX_CHECK_EQ(aggregates.size(), 1)`
and `VELOX_CHECK(!aggregates[0]->inputs.empty())` are modelled as `none`;
an out-of-range input column index (rejected by `RowType::childAt`, both
in `create` itself and in `makeInputTypeForAccumulator` inside the
constructor) is also fatal. -/
def create (aggregates : List AggregateInfo) (inputType : RowType) :
    Option Specialization :=
  match aggregates with
  | [agg] =>
    if agg.inputs.isEmpty then none
    else
      match agg.inputs with
      | [i] => (inputType.get? i).bind kindDispatch
      | more =>
        if more.all (fun idx => idx < inputType.length) then some .sComplex
        else none
  | _ => none

/-- Selection table written from the spec's words ("the factory selects a
specialization ... based on the runtime type of the sole distinct-sensitive
input column": boolean, the integer widths, real, double, timestamp and
varchar get their typed specialization; any nested single column gets the
generic complex one), to be compared with the behavior of `create`. -/
def specSelection : TypeKind → Option Specialization
  | .BOOLEAN => some .sBool
  | .TINYINT => some .sInt8
  | .SMALLINT => some .sInt16
  | .INTEGER => some .sInt32
  | .BIGINT => some .sInt64
  | .REAL => some .sFloat
  | .DOUBLE => some .sDouble
  | .TIMESTAMP => some .sTimestamp
  | .VARCHAR => some .sStringView
  | .ARRAY => some .sComplex
  | .MAP => some .sComplex
  | .ROW => some .sComplex
  | _ => none

/-- Kinds handled by the dispatch switch (everything except the
`VELOX_UNREACHABLE` default). -/
def supportedSingleKind (k : TypeKind) : Bool :=
  (kindDispatch k).isSome

/-- Caller-side well-formedness for `create`: every referenced input
column exists, and a sole input column has a kind the switch supports. -/
def createPrecond (aggregates : List AggregateInfo) (inputType : RowType) : Bool :=
  aggregates.all fun a =>
    match a.inputs with
    | [i] =>
      match inputType.get? i with
      | some k => supportedSingleKind k
      | none => false
    | more => more.all fun idx => idx < inputType.length

/-! #### Group rows and the uniqueness-set accumulator -/

/-- Modelled from the spec: `SetAccumulator<T>`, the external
uniqueness-set collaborator, holds the distinct values seen for one group
in insertion order. -/
structure SetAcc (V : Type) where
  values : List V
deriving DecidableEq

/-- Modelled from the spec: `SetAccumulator::addValue` inserts a value if
it is not already present (hash-assisted value equality). -/
def SetAcc.addValue [DecidableEq V] (a : SetAcc V) (v : V) : SetAcc V :=
  if v ∈ a.values then a else ⟨a.values ++ [v]⟩

/-- Modelled from the spec: number of tracked distinct values. -/
def SetAcc.size (a : SetAcc V) : Nat := a.values.length

/-- Modelled from the spec: `SetAccumulator::extractForSpill` serializes
every element as one "hash prefix + payload" record (§3 record shape),
back-to-back; the blob is kept here at record granularity. -/
def SetAcc.spillRecords (serde : Serde V) (a : SetAcc V) : List (List Nat) :=
  a.values.map (recordBytes serde)

/-- Modelled from the spec: `SetAccumulator::maxSpillSize`, the byte size
of the group's spill blob. -/
def SetAcc.maxSpillSize (serde : Serde V) (a : SetAcc V) : Nat :=
  ((a.spillRecords serde).map List.length).sum

/-- Modelled from the spec: `SetAccumulator::clear` empties the set while
leaving the accumulator object alive. -/
def SetAcc.clear (_a : SetAcc V) : SetAcc V := ⟨[]⟩

/-- Modelled from the spec: `SetAccumulator::addFromSpill` re-inserts each
element record stored in the spill column's serialized-element array
(skipping the 8-byte hash prefix of each record before deserializing). -/
def SetAcc.addFromSpill [DecidableEq V] (serde : Serde V) (a : SetAcc V)
    (elements : List (List (List Nat))) : SetAcc V :=
  elements.foldl
    (fun acc sv =>
      sv.foldl
        (fun acc r =>
          match serde.deserialize (r.drop 8) with
          | some vr => acc.addValue vr.1
          | none => acc)
        acc)
    a

/-- Modelled from the spec: the wrapped aggregate function collaborator
(`exec::Aggregate`), reduced to its per-group state `A` and result `R`:
group initialization, the raw-input path fed by `extractValues`, final
value extraction and `destroy`. -/
structure AggFun (V A R : Type) where
  initGroup : A
  addRaw : A → List V → A
  extractOne : A → R
  destroyOne : A → A

/-- One group row: the null-flag byte, the in-place
`SetAccumulator` slot (`none` = not constructed / destroyed,
`some` = alive), and the wrapped aggregate functions' per-group states. -/
structure GroupRow (V A : Type) where
  nullFlags : Nat
  acc : Option (SetAcc V)
  aggStates : List A
deriving DecidableEq

/-- Modelled from the spec: the accumulator slot's null-mask bit
(`nullMask_`); per the spec, setting it marks the slot non-null. -/
def nullMask : Nat := 1

/-- Whether the distinct-accumulator slot of a row is marked non-null. -/
def GroupRow.slotMarked (g : GroupRow V A) : Bool :=
  g.nullFlags &&& nullMask != 0

/-- Update the element at index `i` (out-of-range indices don't change the
list), mirroring writes through a `char**` groups array. -/
def modifyIdx {α : Type} (f : α → α) : Nat → List α → List α
  | _, [] => []
  | 0, x :: xs => f x :: xs
  | n + 1, x :: xs => x :: modifyIdx f n xs

variable {A R : Type}

/-- The first loop body of `TypedDistinctAggregations::initializeNewGroups`:
set the null-mask bit and placement-new a fresh `SetAccumulator`. -/
def initRow (g : GroupRow V A) : GroupRow V A :=
  { g with nullFlags := g.nullFlags ||| nullMask, acc := some ⟨[]⟩ }

/-- `TypedDistinctAggregations::initializeNewGroups`: for each indicated
row, mark the slot and construct a fresh uniqueness set; then forward
group initialization (same rows and indices) to every wrapped aggregate
function, each initializing its own state slot. -/
def initNewGroups (aggs : List (AggFun V A R)) (groups : List (GroupRow V A))
    (indices : List Nat) : List (GroupRow V A) :=
  let gs1 := indices.foldl (fun gs i => modifyIdx initRow i gs) groups
  aggs.enum.foldl
    (fun gs jf =>
      indices.foldl
        (fun gs i =>
          modifyIdx (fun g => { g with aggStates := g.aggStates.set jf.1 jf.2.initGroup }) i gs)
        gs)
    gs1

/-- Per-row effect of `SetAccumulator::addValue` through the row's
accumulator slot. -/
def addValueRow [DecidableEq V] (v : V) (g : GroupRow V A) : GroupRow V A :=
  { g with acc := g.acc.map (fun a => a.addValue v) }

/-- `TypedDistinctAggregations::addInput`: for every selected row `i`,
insert the decoded input value at `i` into the accumulator of the group
owning row `i`.  `groupOf` maps row index to group index (the `groups`
pointer array); `input` is the decoded accumulator input column
(`decodeInput` / `makeInputForAccumulator`). -/
def addInput [DecidableEq V] (store : List (GroupRow V A)) (groupOf : List Nat)
    (input : List V) (rows : List Nat) : List (GroupRow V A) :=
  rows.foldl
    (fun st i =>
      match groupOf.get? i, input.get? i with
      | some gi, some v => modifyIdx (addValueRow v) gi st
      | _, _ => st)
    store

/-- `TypedDistinctAggregations::addSingleGroupInput`: same, but every
selected row goes to the one group `gi`. -/
def addSingleGroupInput [DecidableEq V] (store : List (GroupRow V A)) (gi : Nat)
    (input : List V) (rows : List Nat) : List (GroupRow V A) :=
  modifyIdx
    (fun g =>
      rows.foldl
        (fun g i =>
          match input.get? i with
          | some v => addValueRow v g
          | none => g)
        g)
    gi store

/-- The spill column produced by `extractForSpill`: an `ArrayVector` of
`VARBINARY` with per-group offsets/sizes and a flat `StringView` elements
vector; each string is kept at element-record granularity. -/
structure SpillColumn where
  offsets : List Nat
  sizes : List Nat
  elements : List (List (List Nat))
deriving DecidableEq

/-- `TypedDistinctAggregations::extractForSpill`: fills the per-group size
and offset tables from `maxSpillSize`, writes the element records of all
groups back-to-back into a single string at elements index 0
(`flatVector->resize(1)` + `setNoCopy(0, ...)`), and clears (but does not
destroy) each group's accumulator. -/
def extractForSpill (serde : Serde V) (groups : List (GroupRow V A)) :
    SpillColumn × List (GroupRow V A) :=
  let sizes := groups.map fun g =>
    (g.acc.map fun a => a.maxSpillSize serde).getD 0
  let offsets := (List.range groups.length).map fun i =>
    ((sizes.take i).foldl (fun x y => x + y) 0)
  let blob := (groups.map fun g =>
    (g.acc.map fun a => a.spillRecords serde).getD []).foldl (fun x y => x ++ y) []
  (⟨offsets, sizes, [blob]⟩,
   groups.map fun g => { g with acc := g.acc.map SetAcc.clear })

/-- `TypedDistinctAggregations::addSingleGroupSpillInput`: looks up the
indicated array cell's size and offset (both unused) and re-inserts every
element of the spill column's elements vector into the group's
accumulator via `addFromSpill`. -/
def addSingleGroupSpillInput [DecidableEq V] (serde : Serde V)
    (g : GroupRow V A) (input : SpillColumn) (index : Nat) :
    Option (GroupRow V A) :=
  match input.sizes.get? index, input.offsets.get? index with
  | some _, some _ =>
    some { g with acc := g.acc.map fun a => a.addFromSpill serde input.elements }
  | _, _ => none

/-- Inner step of `TypedDistinctAggregations::extractValues` for one
wrapped aggregate function at state slot `j`: feed each group's distinct
values through the aggregate's single-group raw-input path, extract each
group's final value, then `destroy` the aggregate's group state. -/
def extractOneAgg (j : Nat) (fj : AggFun V A R) (groups : List (GroupRow V A)) :
    List (Option R) × List (GroupRow V A) :=
  let fed := groups.map fun g =>
    match g.acc, g.aggStates.get? j with
    | some a, some st => { g with aggStates := g.aggStates.set j (fj.addRaw st a.values) }
    | _, _ => g
  let res := fed.map fun g => (g.aggStates.get? j).map fj.extractOne
  let destroyed := fed.map fun g =>
    match g.aggStates.get? j with
    | some st => { g with aggStates := g.aggStates.set j (fj.destroyOne st) }
    | none => g
  (res, destroyed)

/-- `TypedDistinctAggregations::extractValues` over all wrapped aggregate
functions, returning one result column per aggregate. -/
def extractValues (aggs : List (AggFun V A R)) (groups : List (GroupRow V A)) :
    List (List (Option R)) × List (GroupRow V A) :=
  aggs.enum.foldl
    (fun acc jf =>
      let step := extractOneAgg jf.1 jf.2 acc.2
      (acc.1 ++ [step.1], step.2))
    ([], groups)

/-- A group row before `initializeNewGroups` runs on it: slot not marked,
accumulator not constructed, aggregate states uninitialized (filled with
an arbitrary `a0`). -/
def blankRow (aggs : List (AggFun V A R)) (a0 : A) : GroupRow V A :=
  ⟨0, none, List.replicate aggs.length a0⟩

/-- One call in a build history of a group store. -/
inductive BuildStep (V : Type) where
  | callAddInput (groupOf : List Nat) (input : List V) (rows : List Nat)
  | callAddSingle (gi : Nat) (input : List V) (rows : List Nat)

def applyBuildStep [DecidableEq V] (st : List (GroupRow V A)) :
    BuildStep V → List (GroupRow V A)
  | .callAddInput groupOf input rows => addInput st groupOf input rows
  | .callAddSingle gi input rows => addSingleGroupInput st gi input rows

def buildStore [DecidableEq V] (st : List (GroupRow V A))
    (steps : List (BuildStep V)) : List (GroupRow V A) :=
  steps.foldl applyBuildStep st

/-! #### A concrete codec used by the witnesses -/

/-- A trivial concrete codec over `Nat` values satisfying the collaborator
contract: one byte per value, first-byte comparison, identity-style hash
truncated to 64 bits. -/
def natSerde : Serde Nat where
  serialize := fun v => [v]
  deserialize := fun bs =>
    match bs with
    | [] => none
    | b :: rest => some (b, rest)
  compare := fun a b =>
    match a, b with
    | x :: _, y :: _ => if x = y then 0 else 1
    | _, _ => 1
  hashValue := fun v => v % (2 ^ 64)

/-- A concrete wrapped aggregate function used by the witnesses: "count",
with a `Nat` state accumulating the number of fed rows. -/
def countAgg : AggFun Nat Nat Nat where
  initGroup := 0
  addRaw := fun a l => a + l.length
  extractOne := fun a => a
  destroyOne := fun a => a

/-! ### Helper lemmas about the group model -/

theorem get?_modifyIdx {α : Type} (f : α → α) (i k : Nat) (l : List α) :
    (modifyIdx f i l).get? k =
      if k = i then (l.get? k).map f else l.get? k := by
  induction l generalizing i k with
  | nil =>
    simp only [modifyIdx]
    split <;> simp
  | cons x xs ih =>
    match i, k with
    | 0, 0 => simp [modifyIdx]
    | 0, k + 1 => simp [modifyIdx]
    | i + 1, 0 => simp [modifyIdx]
    | i + 1, k + 1 =>
      simp only [modifyIdx, List.get?]
      rw [ih i k]
      by_cases h : k = i
      · simp [h]
      · rw [if_neg h, if_neg (by omega)]

theorem length_modifyIdx {α : Type} (f : α → α) (i : Nat) (l : List α) :
    (modifyIdx f i l).length = l.length := by
  induction l generalizing i with
  | nil => cases i <;> rfl
  | cons x xs ih =>
    match i with
    | 0 => simp [modifyIdx]
    | i + 1 => simp [modifyIdx, ih]

/-- Folding an idempotent per-row update over a list of row indices: rows
in the index list get the update applied once, other rows are unchanged. -/
theorem foldl_modifyIdx_get? {α : Type} (f : α → α)
    (hf : ∀ x, f (f x) = f x) (indices : List Nat) (l : List α) (k : Nat) :
    (indices.foldl (fun gs i => modifyIdx f i gs) l).get? k =
      if k ∈ indices then (l.get? k).map f else l.get? k := by
  induction indices generalizing l with
  | nil => simp
  | cons i0 rest ih =>
    have hstep : (i0 :: rest).foldl (fun gs i => modifyIdx f i gs) l =
        rest.foldl (fun gs i => modifyIdx f i gs) (modifyIdx f i0 l) := rfl
    rw [hstep, ih (modifyIdx f i0 l)]
    by_cases hkrest : k ∈ rest
    · rw [if_pos hkrest, if_pos (by simp [hkrest])]
      rw [get?_modifyIdx]
      by_cases hki : k = i0
      · rw [if_pos hki, Option.map_map]
        match l.get? k with
        | none => simp
        | some x => simp [hf]
      · rw [if_neg hki]
    · rw [if_neg hkrest, get?_modifyIdx]
      by_cases hki : k = i0
      · rw [if_pos hki, if_pos (by simp [hki])]
      · rw [if_neg hki, if_neg (by simp [hki, hkrest])]

theorem foldl_modifyIdx_length {α : Type} (f : α → α) (indices : List Nat)
    (l : List α) :
    (indices.foldl (fun gs i => modifyIdx f i gs) l).length = l.length := by
  induction indices generalizing l with
  | nil => rfl
  | cons i0 rest ih =>
    have hstep : (i0 :: rest).foldl (fun gs i => modifyIdx f i gs) l =
        rest.foldl (fun gs i => modifyIdx f i gs) (modifyIdx f i0 l) := rfl
    rw [hstep, ih, length_modifyIdx]

theorem set_take_succ {α : Type} (l : List α) (n : Nat) (v : α)
    (h : n < l.length) : (l.set n v).take (n + 1) = l.take n ++ [v] := by
  induction l generalizing n with
  | nil => simp at h
  | cons x xs ih =>
    match n with
    | 0 => simp
    | n + 1 =>
      simp only [List.set, List.take, List.cons_append]
      rw [ih n (by simpa using h)]

/-- Replaying `initializeNewGroups` of every wrapped aggregate function:
the per-row aggregate states become exactly the per-function initial
states. -/
theorem foldl_set_enumFrom (aggs : List (AggFun V A R)) (n : Nat) (l : List A)
    (h : l.length = n + aggs.length) :
    (List.enumFrom n aggs).foldl (fun acc jf => acc.set jf.1 jf.2.initGroup) l =
      l.take n ++ aggs.map (fun f => f.initGroup) := by
  induction aggs generalizing n l with
  | nil =>
    simp only [List.enumFrom, List.foldl_nil, List.map_nil, List.append_nil]
    have : l.length = n := by simpa using h
    rw [← this, List.take_length]
  | cons f fs ih =>
    have hstep : (List.enumFrom n (f :: fs)).foldl
        (fun acc jf => acc.set jf.1 jf.2.initGroup) l =
        (List.enumFrom (n + 1) fs).foldl
          (fun acc jf => acc.set jf.1 jf.2.initGroup) (l.set n f.initGroup) := rfl
    rw [hstep, ih (n + 1) (l.set n f.initGroup) (by simp at h ⊢; omega)]
    rw [set_take_succ l n f.initGroup (by simp at h; omega)]
    simp

theorem initRow_idem (g : GroupRow V A) : initRow (initRow g) = initRow g := by
  simp [initRow, Nat.or_assoc, Nat.or_self]

theorem setSlot_idem (j : Nat) (v : A) (g : GroupRow V A) :
    ({ g with aggStates := g.aggStates.set j v } : GroupRow V A).aggStates.set j v
      = g.aggStates.set j v := by
  simp [List.set_set]

/-- Effect of the aggregate-forwarding loop of `initNewGroups` on a single
row: rows in `indices` get all processed state slots set, others are
untouched. -/
theorem initNewGroups_forward_get? (pairs : List (Nat × AggFun V A R))
    (indices : List Nat) (gs : List (GroupRow V A)) (k : Nat) :
    (pairs.foldl
      (fun gs jf =>
        indices.foldl
          (fun gs i =>
            modifyIdx (fun g => { g with aggStates := g.aggStates.set jf.1 jf.2.initGroup }) i gs)
          gs)
      gs).get? k =
    if k ∈ indices then
      (gs.get? k).map fun g =>
        { g with aggStates := pairs.foldl (fun acc jf => acc.set jf.1 jf.2.initGroup) g.aggStates }
    else gs.get? k := by
  induction pairs generalizing gs with
  | nil =>
    simp only [List.foldl_nil]
    split
    · match gs.get? k with
      | none => rfl
      | some g => rfl
    · rfl
  | cons jf pairs ih =>
    have hstep :
        ((jf :: pairs).foldl
          (fun gs jf =>
            indices.foldl
              (fun gs i =>
                modifyIdx (fun g => { g with aggStates := g.aggStates.set jf.1 jf.2.initGroup }) i gs)
              gs)
          gs) =
        (pairs.foldl
          (fun gs jf =>
            indices.foldl
              (fun gs i =>
                modifyIdx (fun g => { g with aggStates := g.aggStates.set jf.1 jf.2.initGroup }) i gs)
              gs)
          (indices.foldl
            (fun gs i =>
              modifyIdx (fun g => { g with aggStates := g.aggStates.set jf.1 jf.2.initGroup }) i gs)
            gs)) := rfl
    rw [hstep, ih]
    by_cases hk : k ∈ indices
    · rw [if_pos hk, if_pos hk]
      rw [foldl_modifyIdx_get? _ (fun g => by simp [List.set_set]) indices gs k]
      rw [if_pos hk]
      match gs.get? k with
      | none => rfl
      | some g => simp
    · rw [if_neg hk, if_neg hk]
      rw [foldl_modifyIdx_get? _ (fun g => by simp [List.set_set]) indices gs k]
      rw [if_neg hk]

/-- Net per-row effect of `initNewGroups` on an indicated row with
well-formed aggregate state storage. -/
theorem initNewGroups_get? (aggs : List (AggFun V A R))
    (groups : List (GroupRow V A)) (indices : List Nat) (k : Nat) (g : GroupRow V A)
    (hk : k ∈ indices) (hg : groups.get? k = some g)
    (hlen : g.aggStates.length = aggs.length) :
    (initNewGroups aggs groups indices).get? k =
      some ⟨g.nullFlags ||| nullMask, some ⟨[]⟩, aggs.map fun f => f.initGroup⟩ := by
  have henum : aggs.enum = List.enumFrom 0 aggs := rfl
  simp only [initNewGroups]
  rw [initNewGroups_forward_get?, if_pos hk]
  rw [foldl_modifyIdx_get? initRow initRow_idem indices groups k, if_pos hk, hg]
  simp only [Option.map_some']
  rw [henum]
  have : (initRow g).aggStates = g.aggStates := rfl
  rw [this]
  rw [foldl_set_enumFrom aggs 0 g.aggStates (by simpa using hlen)]
  simp only [List.take_zero, List.nil_append]
  rfl

theorem initNewGroups_get?_not_mem (aggs : List (AggFun V A R))
    (groups : List (GroupRow V A)) (indices : List Nat) (k : Nat)
    (hk : k ∉ indices) :
    (initNewGroups aggs groups indices).get? k = groups.get? k := by
  simp only [initNewGroups]
  rw [initNewGroups_forward_get?, if_neg hk]
  rw [foldl_modifyIdx_get? initRow initRow_idem indices groups k, if_neg hk]

theorem get?_zero_of_singleton {α : Type} (l : List α) (x : α)
    (hlen : l.length = 1) (hx : l.get? 0 = some x) : l = [x] := by
  match l with
  | [] => simp at hlen
  | [a] =>
    have : a = x := by simpa using hx
    rw [this]
  | _ :: _ :: _ => simp at hlen

theorem mem_modifyIdx {α : Type} (f : α → α) (i : Nat) (l : List α) (g : α)
    (hg : g ∈ modifyIdx f i l) : g ∈ l ∨ ∃ g0 ∈ l, g = f g0 := by
  induction l generalizing i with
  | nil => cases i <;> simp [modifyIdx] at hg
  | cons x xs ih =>
    match i with
    | 0 =>
      simp only [modifyIdx, List.mem_cons] at hg
      rcases hg with hg | hg
      · right; exact ⟨x, by simp, hg⟩
      · left; simp [hg]
    | i + 1 =>
      simp only [modifyIdx, List.mem_cons] at hg
      rcases hg with hg | hg
      · left; simp [hg]
      · rcases ih i hg with h | ⟨g0, hg0, he⟩
        · left; simp [h]
        · right; exact ⟨g0, by simp [hg0], he⟩

theorem forall_modifyIdx {α : Type} (P : α → Prop) (f : α → α) (i : Nat)
    (l : List α) (hl : ∀ g ∈ l, P g) (hf : ∀ g, P g → P (f g)) :
    ∀ g ∈ modifyIdx f i l, P g := by
  intro g hg
  rcases mem_modifyIdx f i l g hg with h | ⟨g0, hg0, he⟩
  · exact hl g h
  · rw [he]; exact hf g0 (hl g0 hg0)

theorem addValue_values_nodup [DecidableEq V] (a : SetAcc V) (v : V)
    (h : a.values.Nodup) : (a.addValue v).values.Nodup := by
  simp only [SetAcc.addValue]
  split
  · exact h
  · rename_i hv
    simp [List.nodup_append, h, hv]

/-- Row content preserved by every input-adding entry point: the null
flags and wrapped-aggregate states are untouched and the accumulator stays
alive with a duplicate-free value list. -/
def RowShape (aggs : List (AggFun V A R)) (g : GroupRow V A) : Prop :=
  g.nullFlags = nullMask ∧ g.aggStates = aggs.map (fun f => f.initGroup) ∧
    ∃ ws, g.acc = some ⟨ws⟩ ∧ ws.Nodup

theorem rowShape_addValueRow [DecidableEq V] (aggs : List (AggFun V A R))
    (v : V) (g : GroupRow V A) (h : RowShape aggs g) :
    RowShape aggs (addValueRow v g) := by
  obtain ⟨h1, h2, ws, h3, h4⟩ := h
  refine ⟨h1, h2, (SetAcc.addValue ⟨ws⟩ v).values, ?_, ?_⟩
  · simp [addValueRow, h3]
  · exact addValue_values_nodup ⟨ws⟩ v h4

theorem rowShape_buildStore [DecidableEq V] (aggs : List (AggFun V A R))
    (steps : List (BuildStep V)) (st : List (GroupRow V A))
    (hst : ∀ g ∈ st, RowShape aggs g) :
    ∀ g ∈ buildStore st steps, RowShape aggs g := by
  induction steps generalizing st with
  | nil => exact hst
  | cons step steps ih =>
    have hstep : buildStore st (step :: steps) =
        buildStore (applyBuildStep st step) steps := rfl
    rw [hstep]
    apply ih
    match step with
    | .callAddInput groupOf input rows =>
      show ∀ g ∈ addInput st groupOf input rows, RowShape aggs g
      simp only [addInput]
      clear hstep
      induction rows generalizing st with
      | nil => exact hst
      | cons r rows ihr =>
        simp only [List.foldl_cons]
        apply ihr
        match groupOf.get? r, input.get? r with
        | some gi, some v =>
          exact forall_modifyIdx _ _ gi st hst (rowShape_addValueRow aggs v)
        | some _, none => exact hst
        | none, some _ => exact hst
        | none, none => exact hst
    | .callAddSingle gi input rows =>
      show ∀ g ∈ addSingleGroupInput st gi input rows, RowShape aggs g
      simp only [addSingleGroupInput]
      apply forall_modifyIdx _ _ gi st hst
      intro g hg
      clear hstep
      induction rows generalizing g with
      | nil => exact hg
      | cons r rows ihr =>
        simp only [List.foldl_cons]
        apply ihr
        match input.get? r with
        | some v => exact rowShape_addValueRow aggs v g hg
        | none => exact hg

theorem addInput_length [DecidableEq V] (st : List (GroupRow V A))
    (groupOf : List Nat) (input : List V) (rows : List Nat) :
    (addInput st groupOf input rows).length = st.length := by
  simp only [addInput]
  induction rows generalizing st with
  | nil => rfl
  | cons r rows ihr =>
    simp only [List.foldl_cons]
    rw [ihr]
    match groupOf.get? r, input.get? r with
    | some gi, some v => exact length_modifyIdx _ _ _
    | some _, none => rfl
    | none, some _ => rfl
    | none, none => rfl

theorem buildStore_length [DecidableEq V] (st : List (GroupRow V A))
    (steps : List (BuildStep V)) :
    (buildStore st steps).length = st.length := by
  induction steps generalizing st with
  | nil => rfl
  | cons step steps ih =>
    have hstep : buildStore st (step :: steps) =
        buildStore (applyBuildStep st step) steps := rfl
    rw [hstep, ih]
    match step with
    | .callAddInput groupOf input rows => exact addInput_length st groupOf input rows
    | .callAddSingle gi input rows => exact length_modifyIdx _ _ _

theorem foldl_forward_length (pairs : List (Nat × AggFun V A R))
    (indices : List Nat) (gs : List (GroupRow V A)) :
    (pairs.foldl
      (fun gs jf =>
        indices.foldl
          (fun gs i =>
            modifyIdx (fun g => { g with aggStates := g.aggStates.set jf.1 jf.2.initGroup }) i gs)
          gs)
      gs).length = gs.length := by
  induction pairs generalizing gs with
  | nil => rfl
  | cons jf pairs ih =>
    simp only [List.foldl_cons]
    rw [ih, foldl_modifyIdx_length]

theorem initNewGroups_length (aggs : List (AggFun V A R))
    (groups : List (GroupRow V A)) (indices : List Nat) :
    (initNewGroups aggs groups indices).length = groups.length := by
  simp only [initNewGroups]
  rw [foldl_forward_length, foldl_modifyIdx_length]

/-- Restoring from a one-group spill blob replays exactly the spilled
values, in order, through `addValue`. -/
theorem addFromSpill_records [DecidableEq V] (serde : Serde V)
    (hrt : ∀ v, serde.deserialize (serde.serialize v) = some (v, []))
    (a : SetAcc V) (ws : List V) :
    a.addFromSpill serde [ws.map (recordBytes serde)] =
      ws.foldl SetAcc.addValue a := by
  simp only [SetAcc.addFromSpill, List.foldl_cons, List.foldl_nil]
  induction ws generalizing a with
  | nil => rfl
  | cons v ws ih =>
    simp only [List.map_cons, List.foldl_cons]
    rw [recordBytes_drop8, hrt v]
    exact ih (a.addValue v)

/-- Re-inserting a duplicate-free value list into an accumulator holding a
disjoint prefix reproduces the concatenation. -/
theorem foldl_addValue_of_nodup [DecidableEq V] (ws pre : List V)
    (h : (pre ++ ws).Nodup) :
    ws.foldl SetAcc.addValue ⟨pre⟩ = ⟨pre ++ ws⟩ := by
  induction ws generalizing pre with
  | nil => simp
  | cons v ws ih =>
    have hv : v ∉ pre := by
      intro hvp
      have hd := (List.nodup_append.mp h).2.2
      exact hd hvp (by simp)
    have hstep : SetAcc.addValue ⟨pre⟩ v = ⟨pre ++ [v]⟩ := by
      simp [SetAcc.addValue, hv]
    simp only [List.foldl_cons, hstep]
    rw [ih (pre ++ [v]) (by rw [List.append_assoc]; exact h)]
    simp

theorem extractForSpill_single [DecidableEq V] (serde : Serde V)
    (g : GroupRow V A) (ws : List V) (hacc : g.acc = some ⟨ws⟩) :
    extractForSpill serde [g] =
      (⟨[0], [SetAcc.maxSpillSize serde ⟨ws⟩], [ws.map (recordBytes serde)]⟩,
       [{ g with acc := some ⟨[]⟩ }]) := by
  simp [extractForSpill, hacc, SetAcc.spillRecords, SetAcc.clear, List.range_succ]

/-! ### Claims -/

/-- C2.  Value round-trip through the store: appending any value and
reading it back at the returned position yields the original value (and
the position compares equal to itself under `equalTo`'s type-aware,
null-as-value comparison), for every position in any append history,
regardless of which chunk or offset backs it.  The codec collaborator is
assumed to satisfy its round-trip and reflexivity contract. -/
theorem c2_value_roundtrip (serde : Serde V)
    (hrt : ∀ v, serde.deserialize (serde.serialize v) = some (v, []))
    (hself : ∀ v, serde.compare (serde.serialize v) (serde.serialize v) = 0)
    (vs : List V) (k : Nat) (v : V) (p : Pos)
    (hk : vs.get? k = some v)
    (hp : (appendAll serde emptyValueStore vs).2.get? k = some p) :
    (appendAll serde emptyValueStore vs).1.read serde p = some v ∧
    (appendAll serde emptyValueStore vs).1.equalTo serde p p = some true := by
  have hpay := appendAll_payload serde vs k v p hk hp
  constructor
  · simp only [ValueStore.read, hpay, hrt v]
  · simp only [ValueStore.equalTo, hpay]
    simp [hself v]

/-- C3.  Hash consistency: `readHash` at a returned position recovers
exactly the input hash function's value for the appended value (the 8-byte
record prefix), for every append history — hence independent of payload
size and chunk boundaries.  The hash collaborator produces a 64-bit value. -/
theorem c3_hash_consistency (serde : Serde V) (vs : List V) (k : Nat) (v : V)
    (p : Pos) (hk : vs.get? k = some v)
    (hp : (appendAll serde emptyValueStore vs).2.get? k = some p)
    (hbits : serde.hashValue v < 2 ^ 64) :
    (appendAll serde emptyValueStore vs).1.readHash p = some (serde.hashValue v) := by
  have hrec := appendAll_record serde vs k v p hk hp
  simp only [ValueStore.readHash, hrec]
  rw [recordBytes_take8, fromLEBytes_toLEBytes]
  have h64 : (256 : Nat) ^ 8 = 2 ^ 64 := by norm_num
  rw [h64, Nat.mod_eq_of_lt hbits]

/-- C4.  Record-shape invariant: every stored record is the 8-byte hash
followed by the serialized payload, and the accessors partition it
consistently — `readHash` reads the prefix without skipping, `read` and
`equalTo` skip exactly the 8-byte prefix before deserializing/comparing,
and `getSerializedSize`/`copySerializedTo` cover the whole record
including the hash. -/
theorem c4_record_shape_invariant (serde : Serde V)
    (hrt : ∀ v, serde.deserialize (serde.serialize v) = some (v, []))
    (vs : List V) (k j : Nat) (v w : V) (p q : Pos)
    (hk : vs.get? k = some v)
    (hp : (appendAll serde emptyValueStore vs).2.get? k = some p)
    (hj : vs.get? j = some w)
    (hq : (appendAll serde emptyValueStore vs).2.get? j = some q) :
    (appendAll serde emptyValueStore vs).1.prepareReadAt p false =
      some (toLEBytes (serde.hashValue v) 8 ++ serde.serialize v) ∧
    (appendAll serde emptyValueStore vs).1.readHash p =
      some (serde.hashValue v % 2 ^ 64) ∧
    (appendAll serde emptyValueStore vs).1.read serde p = some v ∧
    (appendAll serde emptyValueStore vs).1.equalTo serde p q =
      some (decide (serde.compare (serde.serialize v) (serde.serialize w) = 0)) ∧
    (appendAll serde emptyValueStore vs).1.getSerializedSize p =
      some (8 + (serde.serialize v).length) ∧
    (appendAll serde emptyValueStore vs).1.copySerializedTo p
        (8 + (serde.serialize v).length) =
      some (recordBytes serde v, 8 + (serde.serialize v).length) := by
  have hrec := appendAll_record serde vs k v p hk hp
  have hpay := appendAll_payload serde vs k v p hk hp
  have hpayq := appendAll_payload serde vs j w q hj hq
  refine ⟨?_, ?_, ?_, ?_, ?_, ?_⟩
  · simpa [recordBytes] using hrec
  · simp only [ValueStore.readHash, hrec]
    rw [recordBytes_take8, fromLEBytes_toLEBytes]
    have h64 : (256 : Nat) ^ 8 = 2 ^ 64 := by norm_num
    rw [h64]
  · simp only [ValueStore.read, hpay, hrt v]
  · simp only [ValueStore.equalTo, hpay, hpayq]
  · simp only [ValueStore.getSerializedSize, hrec, recordBytes_length]
  · simp only [ValueStore.copySerializedTo, hrec, recordBytes_length]
    rw [if_neg (by omega)]

/-- C5.  `copySerializedTo` bounds contract: at any returned position, the
copy fails (fatally, `VELOX_CHECK_GE`) exactly when the destination size
is strictly smaller than the full record size reported by
`getSerializedSize`; otherwise it copies the whole record (hash plus
payload) and returns the record size. -/
theorem c5_copySerializedTo_bounds (serde : Serde V) (vs : List V) (k : Nat)
    (v : V) (p : Pos) (size : Nat) (hk : vs.get? k = some v)
    (hp : (appendAll serde emptyValueStore vs).2.get? k = some p) :
    ((appendAll serde emptyValueStore vs).1.copySerializedTo p size = none ↔
      size < 8 + (serde.serialize v).length) ∧
    (8 + (serde.serialize v).length ≤ size →
      (appendAll serde emptyValueStore vs).1.copySerializedTo p size =
        some (recordBytes serde v, 8 + (serde.serialize v).length)) := by
  have hrec := appendAll_record serde vs k v p hk hp
  constructor
  · simp only [ValueStore.copySerializedTo, hrec, recordBytes_length]
    by_cases hlt : size < 8 + (serde.serialize v).length
    · simp [hlt]
    · simp [hlt]
  · intro hge
    simp only [ValueStore.copySerializedTo, hrec, recordBytes_length]
    rw [if_neg (by omega)]

/-- C6.  Construction contract of the factory: under well-formed inputs
(valid column indices, supported type for a sole input column),
`DistinctAggregations::create` succeeds exactly when given one aggregate
spec whose declared input list is nonempty; zero specs, more than one
spec, or an empty input list are fatal at construction time. -/
theorem c6_create_construction_contract (aggs : List AggregateInfo)
    (t : RowType) (hpre : createPrecond aggs t = true) :
    (create aggs t).isSome ↔
      (aggs.length = 1 ∧ ∀ a ∈ aggs, a.inputs ≠ []) := by
  match aggs with
  | [] => simp [create]
  | a :: b :: rest => simp [create]
  | [a] =>
    match hinp : a.inputs with
    | [] => simp [create, hinp]
    | [i] =>
      have hpre2 : (match t.get? i with
          | some k => supportedSingleKind k
          | none => false) = true := by
        simpa [createPrecond, hinp] using hpre
      match hti : t.get? i with
      | none => rw [hti] at hpre2; simp at hpre2
      | some k =>
        rw [hti] at hpre2
        simp only [supportedSingleKind] at hpre2
        simp only [create, hinp, List.isEmpty_cons, Bool.false_eq_true,
          if_false, hti, Option.some_bind]
        simp [hpre2, hinp]
    | i :: x :: more =>
      have hpre2 : ((i :: x :: more).all fun idx => idx < t.length) = true := by
        simpa [createPrecond, hinp] using hpre
      simp only [create, hinp, List.isEmpty_cons, Bool.false_eq_true, if_false]
      rw [if_pos hpre2]
      simp [hinp]

/-- C7.  Type dispatch: with exactly one declared input column, the
factory selects the specialization matching the column's runtime type
kind exactly as the spec's selection table says (boolean, the integer
widths, real, double, timestamp, varchar each typed; array/map/row the
generic complex one); with more than one declared input column it selects
the generic complex specialization; all of this at construction time. -/
theorem c7_create_type_dispatch (a : AggregateInfo) (t : RowType) :
    (∀ i k, a.inputs = [i] → t.get? i = some k →
      create [a] t = specSelection k) ∧
    (2 ≤ a.inputs.length → (∀ idx ∈ a.inputs, idx < t.length) →
      create [a] t = some .sComplex) := by
  constructor
  · intro i k hi hk
    simp only [create, hi, List.isEmpty_cons, Bool.false_eq_true, if_false, hk,
      Option.some_bind]
    cases k <;> rfl
  · intro h2 hvalid
    match hinp : a.inputs with
    | [] => rw [hinp] at h2; simp at h2
    | [i] => rw [hinp] at h2; simp at h2
    | i :: x :: more =>
      rw [hinp] at hvalid
      simp only [create, hinp, List.isEmpty_cons, Bool.false_eq_true, if_false]
      rw [if_pos (by simpa [List.all_eq_true] using hvalid)]

/-- C8.  `initializeNewGroups` constructs a fresh (empty) uniqueness set
in the accumulator slot of each indicated row, sets the row's null-mask
bit (marking the slot non-null), and forwards group initialization to
every wrapped aggregate function — each row's aggregate states become the
per-function initial states. -/
theorem c8_initializeNewGroups_behavior (aggs : List (AggFun V A R))
    (groups : List (GroupRow V A)) (indices : List Nat) (k : Nat)
    (g : GroupRow V A) (hk : k ∈ indices) (hg : groups.get? k = some g)
    (hlen : g.aggStates.length = aggs.length) :
    (initNewGroups aggs groups indices).get? k =
      some ⟨g.nullFlags ||| nullMask, some ⟨[]⟩, aggs.map fun f => f.initGroup⟩ ∧
    GroupRow.slotMarked
      (⟨g.nullFlags ||| nullMask, some (⟨[]⟩ : SetAcc V), aggs.map fun f => f.initGroup⟩ :
        GroupRow V A) = true := by
  refine ⟨initNewGroups_get? aggs groups indices k g hk hg hlen, ?_⟩
  simp only [GroupRow.slotMarked, nullMask]
  have h2 : (g.nullFlags ||| 1) % 2 = 1 := by
    simp [Nat.testBit_zero]
  rw [Nat.and_one_is_mod]
  simp [h2]

/-- C9.  Frame property of spill extraction: `extractForSpill` clears each
processed group's uniqueness set (its element count becomes zero) without
destroying the accumulator object, and modifies no other per-group state
(null flags and wrapped-aggregate states are untouched). -/
theorem c9_extractForSpill_frame (serde : Serde V)
    (groups : List (GroupRow V A)) (k : Nat) (g : GroupRow V A) (s : SetAcc V)
    (hg : groups.get? k = some g) (hacc : g.acc = some s) :
    ∃ g2, (extractForSpill serde groups).2.get? k = some g2 ∧
      g2.acc = some (SetAcc.clear s) ∧ (SetAcc.clear s).size = 0 ∧
      g2.acc.isSome = true ∧ g2.nullFlags = g.nullFlags ∧
      g2.aggStates = g.aggStates := by
  refine ⟨{ g with acc := some (SetAcc.clear s) }, ?_, rfl, rfl, rfl, rfl, rfl⟩
  have hmap : (extractForSpill serde groups).2.get? k =
      (groups.get? k).map fun g => { g with acc := g.acc.map SetAcc.clear } := by
    simp [extractForSpill]
  rw [hmap, hg]
  simp [hacc]

/-- C10.  `addSingleGroupSpillInput` ignores its `index` argument beyond
bounds-checking the array-cell lookups: for any two valid indices the
resulting group state is identical, because the looked-up size and offset
are never used and the whole elements vector is passed to `addFromSpill`. -/
theorem c10_spillInput_index_independent [DecidableEq V] (serde : Serde V)
    (g : GroupRow V A) (input : SpillColumn) (i j : Nat)
    (hi1 : i < input.sizes.length) (hi2 : i < input.offsets.length)
    (hj1 : j < input.sizes.length) (hj2 : j < input.offsets.length) :
    addSingleGroupSpillInput serde g input i =
      addSingleGroupSpillInput serde g input j := by
  obtain ⟨si, hsi⟩ := get?_isSome_of_lt input.sizes i hi1
  obtain ⟨oi, hoi⟩ := get?_isSome_of_lt input.offsets i hi2
  obtain ⟨sj, hsj⟩ := get?_isSome_of_lt input.sizes j hj1
  obtain ⟨oj, hoj⟩ := get?_isSome_of_lt input.offsets j hj2
  simp only [addSingleGroupSpillInput]
  rw [hsi, hoi, hsj, hoj]

/-- C1.  Spill/restore idempotence: for a group built by any sequence of
`addInput`/`addSingleGroupInput` calls after `initializeNewGroups`,
extracting it for spill, then feeding the produced spill column (at that
group's row index) into a freshly initialized group via
`addSingleGroupSpillInput`, then extracting values, yields the same
extracted aggregate results as extracting values from the original group
without spilling. -/
theorem c1_spill_restore_idempotence [DecidableEq V] (serde : Serde V)
    (hrt : ∀ v, serde.deserialize (serde.serialize v) = some (v, []))
    (aggs : List (AggFun V A R)) (a0 : A) (steps : List (BuildStep V))
    (gB freshG restored : GroupRow V A)
    (hb : (buildStore (initNewGroups aggs [blankRow aggs a0] [0]) steps).get? 0
        = some gB)
    (hf : (initNewGroups aggs [blankRow aggs a0] [0]).get? 0 = some freshG)
    (hr : addSingleGroupSpillInput serde freshG
        (extractForSpill serde [gB]).1 0 = some restored) :
    (extractValues aggs [restored]).1 = (extractValues aggs [gB]).1 := by
  have hblank : (blankRow aggs a0 : GroupRow V A).aggStates.length = aggs.length := by
    simp [blankRow]
  have hfresh0 : (initNewGroups aggs [blankRow aggs a0] [0]).get? 0 =
      some ⟨0 ||| nullMask, some ⟨[]⟩, aggs.map fun f => f.initGroup⟩ :=
    initNewGroups_get? aggs [blankRow aggs a0] [0] 0 (blankRow aggs a0)
      (by simp) (by simp) hblank
  have hfreshG : freshG =
      ⟨nullMask, some ⟨[]⟩, aggs.map fun f => f.initGroup⟩ := by
    rw [hf] at hfresh0
    simp only [Option.some.injEq] at hfresh0
    rw [hfresh0, Nat.zero_or]
  have hinitlen : (initNewGroups aggs [blankRow aggs a0] [0]).length = 1 := by
    rw [initNewGroups_length]
    rfl
  have hinit : initNewGroups aggs [blankRow aggs a0] [0] =
      [⟨nullMask, some ⟨[]⟩, aggs.map fun f => f.initGroup⟩] := by
    apply get?_zero_of_singleton _ _ hinitlen
    rw [hfresh0, Nat.zero_or]
  have hshape : RowShape aggs gB := by
    apply rowShape_buildStore aggs steps _ _ gB (List.get?_mem hb)
    intro g hg
    rw [hinit] at hg
    simp at hg
    rw [hg]
    exact ⟨rfl, rfl, [], rfl, List.nodup_nil⟩
  obtain ⟨hflags, hstates, ws, hacc, hnodup⟩ := hshape
  have hcol := extractForSpill_single serde gB ws hacc
  rw [hcol] at hr
  simp only [addSingleGroupSpillInput, List.get?] at hr
  have hrestored : restored =
      { freshG with acc := freshG.acc.map fun a =>
          a.addFromSpill serde [ws.map (recordBytes serde)] } := by
    simpa using hr.symm
  have hre : restored = gB := by
    rw [hrestored, hfreshG]
    have haf : (⟨[]⟩ : SetAcc V).addFromSpill serde [ws.map (recordBytes serde)]
        = ⟨ws⟩ := by
      rw [addFromSpill_records serde hrt]
      exact foldl_addValue_of_nodup ws [] (by simpa using hnodup)
    simp only [Option.map_some', haf]
    cases gB with
    | mk fl ac st =>
      simp only at hflags hstates hacc
      rw [hflags, hstates, hacc]
  rw [hre]

/-! ### Witnesses -/

theorem natSerde_rt (v : Nat) :
    natSerde.deserialize (natSerde.serialize v) = some (v, []) := rfl

theorem natSerde_self (v : Nat) :
    natSerde.compare (natSerde.serialize v) (natSerde.serialize v) = 0 := by
  simp [natSerde]

theorem c1_witness :
    (extractValues [countAgg] [(⟨1, some ⟨[5, 7]⟩, [0]⟩ : GroupRow Nat Nat)]).1 =
      (extractValues [countAgg] [(⟨1, some ⟨[5, 7]⟩, [0]⟩ : GroupRow Nat Nat)]).1 :=
  c1_spill_restore_idempotence natSerde natSerde_rt [countAgg] 0
    [BuildStep.callAddSingle 0 [5, 5, 7] [0, 1, 2]]
    ⟨1, some ⟨[5, 7]⟩, [0]⟩ ⟨1, some ⟨[]⟩, [0]⟩ ⟨1, some ⟨[5, 7]⟩, [0]⟩
    (by decide) (by decide) (by decide)

theorem c2_witness :
    (appendAll natSerde emptyValueStore [5, 7]).1.read natSerde ⟨0, 9⟩ = some 7 ∧
    (appendAll natSerde emptyValueStore [5, 7]).1.equalTo natSerde ⟨0, 9⟩ ⟨0, 9⟩ =
      some true :=
  c2_value_roundtrip natSerde natSerde_rt natSerde_self [5, 7] 1 7 ⟨0, 9⟩
    (by decide) (by decide)

theorem c3_witness :
    (appendAll natSerde emptyValueStore [5, 7]).1.readHash ⟨0, 9⟩ =
      some (natSerde.hashValue 7) :=
  c3_hash_consistency natSerde [5, 7] 1 7 ⟨0, 9⟩ (by decide) (by decide)
    (by decide)

theorem c4_witness :
    (appendAll natSerde emptyValueStore [5, 7]).1.prepareReadAt ⟨0, 0⟩ false =
      some (toLEBytes (natSerde.hashValue 5) 8 ++ natSerde.serialize 5) ∧
    (appendAll natSerde emptyValueStore [5, 7]).1.readHash ⟨0, 0⟩ =
      some (natSerde.hashValue 5 % 2 ^ 64) ∧
    (appendAll natSerde emptyValueStore [5, 7]).1.read natSerde ⟨0, 0⟩ = some 5 ∧
    (appendAll natSerde emptyValueStore [5, 7]).1.equalTo natSerde ⟨0, 0⟩ ⟨0, 9⟩ =
      some (decide (natSerde.compare (natSerde.serialize 5) (natSerde.serialize 7) = 0)) ∧
    (appendAll natSerde emptyValueStore [5, 7]).1.getSerializedSize ⟨0, 0⟩ =
      some (8 + (natSerde.serialize 5).length) ∧
    (appendAll natSerde emptyValueStore [5, 7]).1.copySerializedTo ⟨0, 0⟩
        (8 + (natSerde.serialize 5).length) =
      some (recordBytes natSerde 5, 8 + (natSerde.serialize 5).length) :=
  c4_record_shape_invariant natSerde natSerde_rt [5, 7] 0 1 5 7 ⟨0, 0⟩ ⟨0, 9⟩
    (by decide) (by decide) (by decide) (by decide)

theorem c5_witness :
    ((appendAll natSerde emptyValueStore [5, 7]).1.copySerializedTo ⟨0, 0⟩ 8 = none ↔
      8 < 8 + (natSerde.serialize 5).length) ∧
    (8 + (natSerde.serialize 5).length ≤ 8 →
      (appendAll natSerde emptyValueStore [5, 7]).1.copySerializedTo ⟨0, 0⟩ 8 =
        some (recordBytes natSerde 5, 8 + (natSerde.serialize 5).length)) :=
  c5_copySerializedTo_bounds natSerde [5, 7] 0 5 ⟨0, 0⟩ 8 (by decide) (by decide)

theorem c6_witness :
    (create [⟨[0]⟩] [TypeKind.BIGINT]).isSome ↔
      (([⟨[0]⟩] : List AggregateInfo).length = 1 ∧
        ∀ a ∈ ([⟨[0]⟩] : List AggregateInfo), a.inputs ≠ []) :=
  c6_create_construction_contract [⟨[0]⟩] [TypeKind.BIGINT] (by decide)

theorem c7_witness :
    create [⟨[0]⟩] [TypeKind.BOOLEAN] = some Specialization.sBool :=
  (c7_create_type_dispatch ⟨[0]⟩ [TypeKind.BOOLEAN]).1 0 TypeKind.BOOLEAN
    rfl rfl

theorem c8_witness :
    (initNewGroups [countAgg] [(⟨0, none, [99]⟩ : GroupRow Nat Nat)] [0]).get? 0 =
      some ⟨0 ||| nullMask, some ⟨[]⟩, [countAgg].map fun f => f.initGroup⟩ ∧
    GroupRow.slotMarked
      (⟨0 ||| nullMask, some (⟨[]⟩ : SetAcc Nat),
        [countAgg].map fun f => f.initGroup⟩ : GroupRow Nat Nat) = true :=
  c8_initializeNewGroups_behavior [countAgg] [⟨0, none, [99]⟩] [0] 0
    ⟨0, none, [99]⟩ (by decide) (by decide) (by decide)

theorem c9_witness :
    ∃ g2, (extractForSpill natSerde
        [(⟨1, some ⟨[4]⟩, [0]⟩ : GroupRow Nat Nat)]).2.get? 0 = some g2 ∧
      g2.acc = some (SetAcc.clear ⟨[4]⟩) ∧ (SetAcc.clear (⟨[4]⟩ : SetAcc Nat)).size = 0 ∧
      g2.acc.isSome = true ∧ g2.nullFlags = 1 ∧ g2.aggStates = [0] :=
  c9_extractForSpill_frame natSerde [⟨1, some ⟨[4]⟩, [0]⟩] 0 ⟨1, some ⟨[4]⟩, [0]⟩
    ⟨[4]⟩ (by decide) (by decide)

theorem c10_witness :
    addSingleGroupSpillInput natSerde (⟨1, some ⟨[]⟩, [0]⟩ : GroupRow Nat Nat)
        ⟨[0, 3], [5, 6], [[[1]]]⟩ 0 =
      addSingleGroupSpillInput natSerde (⟨1, some ⟨[]⟩, [0]⟩ : GroupRow Nat Nat)
        ⟨[0, 3], [5, 6], [[[1]]]⟩ 1 :=
  c10_spillInput_index_independent natSerde ⟨1, some ⟨[]⟩, [0]⟩
    ⟨[0, 3], [5, 6], [[[1]]]⟩ 0 1 (by decide) (by decide) (by decide) (by decide)

end Vx
